import Mathlib

/-!
Verification of the FeedbackMemoSite active-learning curation engine.

This file shallowly embeds the curation components referenced by the
checked claims, translated from the Python sources:
  * `curation/query/query_strategies.py` (sampling strategies)
  * `curation/metadata/metadata.py` (label store, persistence)
  * `curation/labeling/human_labeling.py` (oracle labeling round)
  * `curation/utils/stopping.py` (stopping controller)
  * `curation/model/model_confidence_updater.py` (confidence model)

Modelling conventions:
  * Python floats are modelled as exact rationals.  All verified statements
    about the sampling strategies concern order-based outputs, which agree
    with exact arithmetic.
  * The transcendental parts (the entropy formula of the BALD mutual
    information score, built from logarithms, and the Euclidean norm of
    `np.linalg.norm`, built from a square root) are abstracted as function
    parameters `mi` and `dist`; every selection decision made by the source
    treats them as opaque per-item scores.  Theorems quantify over them,
    assuming only nonnegativity where the source relies on it.
  * `np.argsort` (and the composite `argpartition` + `argsort` reordering
    of the coreset sampler) is modelled as the deterministic sort by
    descending (resp. ascending) score with ties broken by ascending
    index; numpy leaves the tie order unspecified.
  * Python dicts are modelled as association lists with distinct keys
    in insertion order; `LabelValue` wrappers carry only their `.value`
    string, so wrapping is the identity in the model.
-/

set_option maxRecDepth 8000

namespace FeedbackMemo

/-! ## Common helpers -/

/-- The `1e-12` guard added to denominators throughout the query strategies. -/
def epsQ : ℚ := 1 / 1000000000000

/-- Maximum of a list, `np.max` style; the `[]` case never arises at use sites. -/
def listMax : List ℚ → ℚ
  | [] => 0
  | x :: xs => xs.foldl max x

/-- Minimum of a list, Python `min` / `np.min` style; the `[]` case never
arises at use sites. -/
def listMin : List ℚ → ℚ
  | [] => 0
  | x :: xs => xs.foldl min x

/-! ## Query strategies (`curation/query/query_strategies.py`)

A `QRecord` is the `Record` TypedDict: `labeled`, `confidences`,
`mc_probs` (list of per-sample probability vectors; `[]` models both an
absent key and `None`, which are equally falsy in every use), and
`embedding`. -/

structure QRecord where
  labeled : Bool
  confidences : List (String × ℚ)
  mc_probs : List (List ℚ)
  embedding : Option (List ℚ)
deriving DecidableEq

/-- Default record used for out-of-range `getD` access; all verified inputs
index inside the list. -/
def qdef : QRecord := ⟨false, [], [], none⟩

def qget (records : List QRecord) (i : ℕ) : QRecord := records.getD i qdef

/-- `np.where(unlabeled_mask)[0]`. -/
def unlabeledIdx (records : List QRecord) : List ℕ :=
  (List.range records.length).filter (fun i => !(qget records i).labeled)

/-- `np.where(labeled_mask)[0]`. -/
def labeledIdx (records : List QRecord) : List ℕ :=
  (List.range records.length).filter (fun i => (qget records i).labeled)

/-- Ascending sort key with index tie-break: the order realised by
`np.argsort(scores)` under the deterministic tie model. -/
def lexAsc {α : Type} [LinearOrder α] (key : ℕ → α) (i j : ℕ) : Prop :=
  key i < key j ∨ (key i = key j ∧ i ≤ j)

instance {α : Type} [LinearOrder α] (key : ℕ → α) (i j : ℕ) :
    Decidable (lexAsc key i j) := by
  unfold lexAsc; infer_instance

/-- `np.argsort(scores)` over indices `0..n-1`. -/
def argsortAsc {α : Type} [LinearOrder α] (key : ℕ → α) (n : ℕ) : List ℕ :=
  (List.range n).mergeSort (fun i j => decide (lexAsc key i j))

/-- Descending sort key with index tie-break: the order realised by
`np.argsort(-scores)` under the deterministic tie model. -/
def lexDesc (key : ℕ → ℚ) (i j : ℕ) : Prop :=
  key j < key i ∨ (key i = key j ∧ i ≤ j)

instance (key : ℕ → ℚ) (i j : ℕ) : Decidable (lexDesc key i j) := by
  unfold lexDesc; infer_instance

/-- `np.argsort(-scores)` over indices `0..n-1`. -/
def argsortDesc (key : ℕ → ℚ) (n : ℕ) : List ℕ :=
  (List.range n).mergeSort (fun i j => decide (lexDesc key i j))

/-- `min(r.get("confidences", {}).values()) if r.get("confidences") else 0.0`. -/
def confScore (c : List (String × ℚ)) : ℚ :=
  if c = [] then 0 else listMin (c.map Prod.snd)

/-- Scores after `model_confidences[labeled_mask] = np.inf`. -/
def lcKey (records : List QRecord) (i : ℕ) : WithTop ℚ :=
  if (qget records i).labeled then ⊤ else (confScore (qget records i).confidences : WithTop ℚ)

/-- `least_confidence_sampling`. -/
def least_confidence_sampling (records : List QRecord) (n : ℕ) : List ℕ :=
  (argsortAsc (lcKey records) records.length).take n

/-- The `mc_list` of per-item mutual-information scores, one per unlabeled
record whose `mc_probs` is truthy, in unlabeled-index order. -/
def mcVals (mi : List (List ℚ) → ℚ) (records : List QRecord) : List ℚ :=
  (unlabeledIdx records).filterMap (fun i =>
    if (qget records i).mc_probs = [] then none else some (mi (qget records i).mc_probs))

/-- `bald_scores[unlabeled_indices[:len(bald_scores_array)]] = bald_scores_array`
on a zero array: the computed scores land on the first `vals.length`
unlabeled indices, not on the records they came from. -/
def assignScores (ul : List ℕ) (vals : List ℚ) (i : ℕ) : ℚ :=
  ((ul.zip vals).lookup i).getD 0

/-- The `bald_scores` array right after the misaligned assignment. -/
def baldRaw (mi : List (List ℚ) → ℚ) (records : List QRecord) : ℕ → ℚ :=
  assignScores (unlabeledIdx records) (mcVals mi records)

/-- `bald_scores` after `bald_scores[~unlabeled_mask] = -1.0` (the order
used by `bald_sampling`: labeled slots are set to −1 before the max is
taken). -/
def baldWithNeg (mi : List (List ℚ) → ℚ) (records : List QRecord) : ℕ → ℚ :=
  fun i => if (qget records i).labeled then -1 else baldRaw mi records i

/-- `bald_scores.max()` in `bald_sampling`. -/
def baldM (mi : List (List ℚ) → ℚ) (records : List QRecord) : ℚ :=
  listMax ((List.range records.length).map (baldWithNeg mi records))

/-- The normalised scores `bald_scores /= bald_scores.max() + 1e-12`. -/
def baldFinal (mi : List (List ℚ) → ℚ) (records : List QRecord) : ℕ → ℚ :=
  fun i => baldWithNeg mi records i / (baldM mi records + epsQ)

/-- `bald_sampling`, with the mutual-information formula abstracted as `mi`. -/
def bald_sampling (mi : List (List ℚ) → ℚ) (records : List QRecord) (n : ℕ) : List ℕ :=
  if unlabeledIdx records = [] then []
  else if mcVals mi records = [] then []
  else (argsortDesc (baldFinal mi records) records.length).take n

/-- `r.get("embedding") if r.get("embedding") is not None else np.zeros(1)`. -/
def effEmb (records : List QRecord) (i : ℕ) : List ℚ :=
  ((qget records i).embedding).getD [0]

/-- `dist_matrix.min(axis=1)`: distance from record `i` to its nearest
labeled record, with the Euclidean norm abstracted as `dist`. -/
def minDistTo (dist : List ℚ → List ℚ → ℚ) (records : List QRecord)
    (lab : List ℕ) (i : ℕ) : ℚ :=
  listMin (lab.map (fun j => dist (effEmb records i) (effEmb records j)))

/-- `greedy_coreset_sampling`.  The composite
`argpartition(-d, n-1)[:n]` reordered by `argsort(-d[top])` is modelled as
the first `n` entries of the descending argsort (`np.argpartition` raises
for `n` exceeding the number of unlabeled records; the claims proved below
stay inside `n ≤ #unlabeled`, where the model is exact). -/
def coresetDL (dist : List ℚ → List ℚ → ℚ) (records : List QRecord) : ℕ → ℚ :=
  fun k => minDistTo dist records (labeledIdx records) ((unlabeledIdx records).getD k 0)

def greedy_coreset_sampling (dist : List ℚ → List ℚ → ℚ) (records : List QRecord)
    (n : ℕ) : List ℕ :=
  if unlabeledIdx records = [] then []
  else if labeledIdx records = [] then (unlabeledIdx records).take n
  else ((argsortDesc (coresetDL dist records) (unlabeledIdx records).length).take n).map
    (fun k => (unlabeledIdx records).getD k 0)

/-- The hybrid's `coreset_scores` array: 1 on unlabeled slots at cold
start, otherwise the min-distance normalised by its max (labeled slots
keep 0 and are overridden later anyway). -/
def coresetScoreH (dist : List ℚ → List ℚ → ℚ) (records : List QRecord) : ℕ → ℚ :=
  fun i =>
    if labeledIdx records = [] then (if (qget records i).labeled then 0 else 1)
    else if (qget records i).labeled then 0
    else minDistTo dist records (labeledIdx records) i
      / (listMax ((unlabeledIdx records).map
          (minDistTo dist records (labeledIdx records))) + epsQ)

/-- `bald_scores.max()` in the hybrid: taken before labeled slots are set
to −1 (the opposite order from `bald_sampling`). -/
def hybridBaldM (mi : List (List ℚ) → ℚ) (records : List QRecord) : ℚ :=
  listMax ((List.range records.length).map (baldRaw mi records))

/-- The hybrid's normalised `bald_scores` before the −1 override. -/
def hybridBald1 (mi : List (List ℚ) → ℚ) (records : List QRecord) : ℕ → ℚ :=
  fun i =>
    if mcVals mi records = [] then 0
    else baldRaw mi records i / (hybridBaldM mi records + epsQ)

/-- The hybrid's `combined_scores` after `combined_scores[labeled_mask] = -1.0`,
with `λ` clipped to `[0, 1]`. -/
def hybridCombined (mi : List (List ℚ) → ℚ) (dist : List ℚ → List ℚ → ℚ)
    (records : List QRecord) (lambda_t : ℚ) : ℕ → ℚ :=
  fun i =>
    if (qget records i).labeled then -1
    else max 0 (min 1 lambda_t) * coresetScoreH dist records i
      + (1 - max 0 (min 1 lambda_t)) * hybridBald1 mi records i

/-- `hybrid_coreset_bald_sampling`, with `mi` and `dist` abstracted as in
`bald_sampling` and `greedy_coreset_sampling`. -/
def hybrid_coreset_bald_sampling (mi : List (List ℚ) → ℚ) (dist : List ℚ → List ℚ → ℚ)
    (records : List QRecord) (n : ℕ) (lambda_t : ℚ) : List ℕ :=
  if unlabeledIdx records = [] then []
  else (argsortDesc (hybridCombined mi dist records lambda_t) records.length).take n

/-! ## Label store (`curation/metadata/metadata.py`)

`LabelValue` carries only a string `.value`; wrapping/unwrapping is the
identity in the model, so label values are plain strings throughout.
`RAGExample` evidence entries are opaque to every claim and are modelled
by their text. -/

structure DimensionLabelProposal where
  labels : List (String × String)
  confidences : List (String × ℚ)
  rationale : List (String × String)
  evidence : List String
  source : Option String
  model_id : Option String
deriving DecidableEq

structure MRecord where
  index : ℕ
  text : String
  seed_proposal : Option DimensionLabelProposal
  labeled : Bool
  labels : List (String × String)
  confidences : List (String × ℚ)
  rationale : List (String × String)
  evidence : List String
  source : Option String
  model_id : Option String
  label_source : Option String
deriving DecidableEq

/-- A prediction snapshot: `Dict[int, Dict[str, str]]`. -/
def Snapshot : Type := List (ℕ × List (String × String))

instance : DecidableEq Snapshot := by
  unfold Snapshot; infer_instance

/-- `ActiveLearningMetadata` (the `seed_proposal_factory` is used only at
construction time and is not part of the persisted or mutated state). -/
structure ActiveLearningMetadata where
  feedback_texts : List String
  seed_indices : List ℕ
  records : List MRecord
  prediction_history : List Snapshot
deriving DecidableEq

/-- `__post_init__`: one fresh record per text, seeding `seed_proposal`
for seed indices when a factory is supplied. -/
def initRecords (texts : List String) (seeds : List ℕ)
    (factory : Option (ℕ → String → DimensionLabelProposal)) : List MRecord :=
  (List.range texts.length).map (fun idx =>
    { index := idx
      text := texts.getD idx ""
      seed_proposal :=
        match factory with
        | some f => if idx ∈ seeds then some (f idx (texts.getD idx "")) else none
        | none => none
      labeled := false
      labels := []
      confidences := []
      rationale := []
      evidence := []
      source := none
      model_id := none
      label_source := none })

def initMetadata (texts : List String) (seeds : List ℕ)
    (factory : Option (ℕ → String → DimensionLabelProposal)) : ActiveLearningMetadata :=
  ⟨texts, seeds, initRecords texts seeds factory, []⟩

def unlabeled_indices (m : ActiveLearningMetadata) : List ℕ :=
  (m.records.filter (fun r => !r.labeled)).map (·.index)

def labeled_indices (m : ActiveLearningMetadata) : List ℕ :=
  (m.records.filter (·.labeled)).map (·.index)

def done (m : ActiveLearningMetadata) : Bool := m.records.all (·.labeled)

/-- In-place mutation of `self.records[idx]`; Python raises on an
out-of-range index, which no verified claim exercises, so the model keeps
the list unchanged there. -/
def modifyAt {α : Type} : List α → ℕ → (α → α) → List α
  | [], _, _ => []
  | x :: xs, 0, f => f x :: xs
  | x :: xs, i + 1, f => x :: modifyAt xs i f

/-- `apply_labels` (the Python `rationale or {}` / `evidence or []`
defaulting happens before these arguments are read, so the model takes the
already-defaulted lists). -/
def apply_labels (m : ActiveLearningMetadata) (idx : ℕ)
    (labels : List (String × String)) (confidences : List (String × ℚ))
    (rationale : List (String × String)) (evidence : List String)
    (source : Option String) (model_id : Option String) : ActiveLearningMetadata :=
  { m with records := modifyAt m.records idx (fun r =>
      { r with
        labels := labels
        confidences := confidences
        rationale := rationale
        evidence := evidence
        source := source
        model_id := model_id
        labeled := true
        label_source := some "seed" }) }

/-- One iteration of the `for idx, proposal in zip(indices, proposals)`
loop body of `mark_as_labeled`. -/
def markOne (rs : List MRecord) (ip : ℕ × DimensionLabelProposal) : List MRecord :=
  modifyAt rs ip.1 (fun r =>
    { r with
      labeled := true
      labels := ip.2.labels
      confidences := ip.2.confidences
      rationale := ip.2.rationale
      evidence := ip.2.evidence
      source := ip.2.source
      model_id := ip.2.model_id })

/-- `mark_as_labeled`: iterates over `zip(indices, proposals)`. -/
def mark_as_labeled (m : ActiveLearningMetadata) (indices : List ℕ)
    (proposals : List DimensionLabelProposal) : ActiveLearningMetadata :=
  { m with records := ((indices.zip proposals)).foldl markOne m.records }

/-- `HumanLabeling.label_batch` (`curation/labeling/human_labeling.py`),
with the embedding/RAG/LLM/JSON-parsing round trip for one index
abstracted as `oracle : index -> Option proposal`; a `None` is the
`json.loads` failure path, whose `continue` drops the index from the
`proposals` list while `feedback_indices` is passed on unchanged. -/
def label_batch (m : ActiveLearningMetadata) (feedback_indices : List ℕ)
    (oracle : ℕ → Option DimensionLabelProposal) : ActiveLearningMetadata :=
  mark_as_labeled m feedback_indices (feedback_indices.filterMap oracle)

/-- `save`: `_make_json_serializable` maps each `LabelValue` to its
`.value` (the identity here) and each proposal to the dictionary of its
six fields (the identity up to this model's representation), so the JSON
payload is exactly the records list — and nothing else: in particular the
`prediction_history` is not written. -/
def save (m : ActiveLearningMetadata) : List MRecord := m.records

/-- The per-record reconstruction step of `load`: a proposal is rebuilt
from the record's own `labels`/`confidences`/... fields whenever `labels`
is truthy, and stored in `seed_proposal`. -/
def loadRecord (r : MRecord) : MRecord :=
  { r with seed_proposal :=
      if r.labels = [] then none
      else some ⟨r.labels, r.confidences, r.rationale, r.evidence, r.source, r.model_id⟩ }

/-- `load`: the payload is either the list format (which `save` writes) or
the dict format `{"records": ..., "prediction_history": ...}` (which only
`load` understands). -/
def load (payload : List MRecord ⊕ (List MRecord × List Snapshot)) : ActiveLearningMetadata :=
  match payload with
  | Sum.inl records_json =>
    { feedback_texts := records_json.map (·.text)
      seed_indices := []
      records := records_json.map loadRecord
      prediction_history := [] }
  | Sum.inr (records_json, hist) =>
    { feedback_texts := records_json.map (·.text)
      seed_indices := []
      records := records_json.map loadRecord
      prediction_history := hist }

/-! ## Stopping controller (`curation/utils/stopping.py`)

`np.nan` results are modelled as `none`; the `last_per_dim_kappa`
diagnostic dictionary is not modelled (no claim refers to it, and it feeds
back into no decision). -/

structure StoppingConfig where
  min_iterations : ℕ
  patience : ℕ
  window_size : ℕ
  mean_kappa_threshold : ℚ
  floor_kappa_threshold : ℚ

structure StopState where
  history : List Snapshot
  stable_counter : ℕ
deriving DecidableEq

/-- `sorted(snapshot.keys())`. -/
def sortedKeys (s : Snapshot) : List ℕ :=
  (s.map Prod.fst).mergeSort (fun a b => decide (a ≤ b))

/-- `[snap[idx][dim] for idx in sorted(snap.keys()) if dim in snap[idx]]`. -/
def seqFor (s : Snapshot) (dim : String) : List String :=
  (sortedKeys s).filterMap (fun idx => (List.lookup idx s).bind (fun ls => List.lookup dim ls))

/-- Number of distinct labels, `len(set(y))`. -/
def distinct (l : List String) : ℕ := l.dedup.length

/-- `sorted(labels_1 | labels_2)`, passed to `cohen_kappa_score`. -/
def kappaCats (y1 y2 : List String) : List String :=
  ((y1 ++ y2).dedup).mergeSort (fun a b => decide (a ≤ b))

/-- `cohen_kappa_score(y1, y2, labels=sorted(set(y1)|set(y2)))`:
observed agreement `po`, chance agreement `pe` from the marginal counts,
kappa `(po - pe) / (1 - pe)`. -/
def cohenKappa (y1 y2 : List String) : ℚ :=
  let n : ℚ := y1.length
  let po : ℚ := ((y1.zip y2).countP (fun p => decide (p.1 = p.2)) : ℚ) / n
  let pe : ℚ :=
    ((kappaCats y1 y2).map (fun c => (y1.count c : ℚ) * (y2.count c : ℚ))).sum / (n * n)
  (po - pe) / (1 - pe)

/-- `_safe_kappa` (the `except ValueError` branch is unreachable for the
inputs that pass the guards: with two distinct labels on each side the
chance agreement is strictly below 1). -/
def safe_kappa (y1 y2 : List String) : Option ℚ :=
  if y1.length < 2 ∨ y1.length ≠ y2.length then none
  else if distinct y1 < 2 ∨ distinct y2 < 2 then none
  else some (cohenKappa y1 y2)

/-- The per-dimension kappa list gathered over adjacent window pairs, with
`nan` results filtered out (`if not np.isnan(k)`). -/
def ksOf (window : List Snapshot) (dim : String) : List ℚ :=
  (window.zip window.tail).filterMap (fun p => safe_kappa (seqFor p.1 dim) (seqFor p.2 dim))

/-- `np.mean`. -/
def meanQ (l : List ℚ) : ℚ := l.sum / (l.length : ℚ)

/-- The `mean_k` computed by `update` for one dimension: `none` when the
dimension collected no valid pairwise kappas. -/
def dimMeanKappa (window : List Snapshot) (dim : String) : Option ℚ :=
  let ks := ksOf window dim
  if ks = [] then none else some (meanQ ks)

/-- The `for dim, ks in per_dim_kappas.items()` loop of `update`: `none`
models the early `return False` after `self.stable_counter = 0` (the floor
veto); otherwise the collected `dim_means`. -/
def dimScan (window : List Snapshot) (floor_thr : ℚ) : List String → Option (List ℚ)
  | [] => some []
  | d :: ds =>
    let ks := ksOf window d
    if ks = [] then dimScan window floor_thr ds
    else
      let mean_k := meanQ ks
      if mean_k < floor_thr then none
      else (dimScan window floor_thr ds).map (fun ms => mean_k :: ms)

/-- The window `self.prediction_history[-window_size:]` (for
`window_size = 0` the Python slice is the whole history). -/
def windowOf (cfg : StoppingConfig) (hist : List Snapshot) : List Snapshot :=
  if cfg.window_size = 0 then hist else hist.drop (hist.length - cfg.window_size)

/-- `StoppingController.update`: append the snapshot, return not-stopped
while the window is not yet full, otherwise scan dimensions (floor veto),
then compare the across-dimension mean against `mean_kappa_threshold` and
report stopped when the stability counter reaches `patience`. -/
def update (cfg : StoppingConfig) (dims : List String) (st : StopState)
    (preds : Snapshot) : StopState × Bool :=
  let hist := st.history ++ [preds]
  if hist.length < cfg.window_size then ({ history := hist, stable_counter := st.stable_counter }, false)
  else
    match dimScan (windowOf cfg hist) cfg.floor_kappa_threshold dims with
    | none => ({ history := hist, stable_counter := 0 }, false)
    | some [] => ({ history := hist, stable_counter := st.stable_counter }, false)
    | some dimMeans =>
      let overall := meanQ dimMeans
      let c := if cfg.mean_kappa_threshold ≤ overall then st.stable_counter + 1 else 0
      ({ history := hist, stable_counter := c }, decide (cfg.patience ≤ c))

/-! ## Confidence model (`curation/model/model_confidence_updater.py`)

The numeric TF-IDF + MultinomialNB pipeline is abstracted, but its
control flow — including its raising paths — is kept: the shared
vectorizer's `fit_transform(texts_dim)` runs *before* the label-diversity
check and raises `ValueError` when the corpus yields an empty vocabulary
(stop-word-only or empty texts); whether a given corpus fits successfully
is the parameter `vocabOk`.  `predict` calls `vectorizer.transform(texts)`
before its per-dimension loop, which raises sklearn's `NotFittedError`
whenever the vectorizer was never successfully fitted; on fitted
dimensions the trained classifier is the opaque parameter `clf`.
Failures are modelled with `Except`. -/

/-- The spec's placeholder treatment of missing labels (§4.4 step 3): the
common item set of an adjacent snapshot pair. -/
def commonItems (s1 s2 : Snapshot) : List ℕ :=
  (((s1.map Prod.fst) ++ (s2.map Prod.fst)).dedup).mergeSort (fun a b => decide (a ≤ b))

/-- The spec's label sequence for one snapshot over a common item set:
an item missing the dimension contributes the distinct placeholder
category. -/
def seqForPlaceholder (s : Snapshot) (common : List ℕ) (dim : String) : List String :=
  common.map (fun idx => ((List.lookup idx s).bind (fun ls => List.lookup dim ls)).getD "__missing__")

/-- Per-dimension mean kappa as the spec describes step 3: adjacent pairs
compared over a common item set with a placeholder category for missing
labels, degenerate pairs excluded from the mean. -/
def dimMeanKappaSpec (window : List Snapshot) (dim : String) : Option ℚ :=
  let ks := (window.zip window.tail).filterMap (fun p =>
    safe_kappa (seqForPlaceholder p.1 (commonItems p.1 p.2) dim)
      (seqForPlaceholder p.2 (commonItems p.1 p.2) dim))
  if ks = [] then none else some (meanQ ks)

/-- Cohen's kappa with the marginal sum taken over the unsorted
deduplicated category list (used by the amended description of C6; the
value is invariant under the enumeration order of the categories). -/
def cohenKappaAmended (y1 y2 : List String) : ℚ :=
  let n : ℚ := y1.length
  let po : ℚ := ((y1.zip y2).countP (fun p => decide (p.1 = p.2)) : ℚ) / n
  let pe : ℚ :=
    (((y1 ++ y2).dedup).map (fun c => (y1.count c : ℚ) * (y2.count c : ℚ))).sum / (n * n)
  (po - pe) / (1 - pe)

/-- The amended description of the per-dimension pairwise kappas (claim
C6 as corrected): snapshots `i` and `i+1` contribute, each from its own
item set in ascending item order, the labels of the items that carry the
dimension; pairs whose sequences are shorter than 2, differ in length, or
have fewer than 2 distinct labels on either side are skipped. -/
def ksOfAmended (window : List Snapshot) (dim : String) : List ℚ :=
  (List.range (window.length - 1)).filterMap (fun i =>
    if 2 ≤ (seqFor (window.getD i []) dim).length
        ∧ (seqFor (window.getD i []) dim).length = (seqFor (window.getD (i + 1) []) dim).length
        ∧ 2 ≤ distinct (seqFor (window.getD i []) dim)
        ∧ 2 ≤ distinct (seqFor (window.getD (i + 1) []) dim)
    then some (cohenKappaAmended (seqFor (window.getD i []) dim)
      (seqFor (window.getD (i + 1) []) dim))
    else none)

/-- The amended per-dimension mean kappa: the average of the surviving
pairwise kappas, or no value when none survives. -/
def dimMeanKappaAmended (window : List Snapshot) (dim : String) : Option ℚ :=
  if ksOfAmended window dim = [] then none else some (meanQ (ksOfAmended window dim))

/-- The unmasked least-confidence score of record `i`. -/
def lcScore (records : List QRecord) (i : ℕ) : ℚ :=
  confScore (qget records i).confidences

/-- The conclusion of claim C2 as amended: what
`least_confidence_sampling records n` satisfies when `n` does not exceed
the number of unlabeled records. -/
def lcSpecHolds (records : List QRecord) (n : ℕ) : Prop :=
  let sel := least_confidence_sampling records n
  sel.length = min n (unlabeledIdx records).length
  ∧ (∀ i ∈ sel, (qget records i).labeled = false)
  ∧ sel.Pairwise (fun i j => lcScore records i ≤ lcScore records j)
  ∧ (∀ i ∈ sel,
      ((qget records i).confidences = [] → lcScore records i = 0)
      ∧ ((qget records i).confidences ≠ [] →
          lcScore records i ∈ (qget records i).confidences.map Prod.snd
          ∧ ∀ v ∈ (qget records i).confidences.map Prod.snd, lcScore records i ≤ v))

/-! ## Concrete inputs for counterexamples and witnesses -/

/-- A constant stand-in for the abstract mutual-information score (any
positive value selects the same indices). -/
def mi1 : List (List ℚ) → ℚ := fun _ => 1

/-- Squared Euclidean distance: the strictly monotone image of
`np.linalg.norm` used to instantiate the abstract `dist`. -/
def sqDist (a b : List ℚ) : ℚ :=
  ((a.zip b).map (fun p => (p.1 - p.2) * (p.1 - p.2))).sum

/-- Unlabeled query record with no confidences, MC samples or embedding. -/
def rU : QRecord := ⟨false, [], [], none⟩

/-- Labeled query record. -/
def rL : QRecord := ⟨true, [], [], none⟩

/-- Unlabeled query record carrying MC probability samples. -/
def rM : QRecord := ⟨false, [], [[mkRat 1 2, mkRat 1 2], [1, 0]], none⟩

/-- Unlabeled query records with confidences, for the C2 witness. -/
def rC1 : QRecord := ⟨false, [("severity", mkRat 3 10)], [], none⟩

def rC2 : QRecord := ⟨false, [("severity", mkRat 7 10), ("urgency", mkRat 2 10)], [], none⟩

/-- Default `MRecord` for `getD` access in statements. -/
def mdef : MRecord := ⟨0, "", none, false, [], [], [], [], none, none, none⟩

/-- Fresh two-record metadata. -/
def m2 : ActiveLearningMetadata := initMetadata ["t0", "t1"] [] none

/-- A parsed oracle proposal. -/
def p1 : DimensionLabelProposal :=
  ⟨[("severity", "high")], [("severity", mkRat 9 10)], [], [], some "llm", some "m1"⟩

/-- Oracle whose response for index 0 is unparseable and whose response
for index 1 parses to `p1`. -/
def oracle0 : ℕ → Option DimensionLabelProposal :=
  fun i => if i = 1 then some p1 else none

/-- A prediction snapshot for the persistence round trip. -/
def snapA : Snapshot := [(0, [("severity", "high")])]

/-- Metadata whose prediction history holds one snapshot. -/
def m4 : ActiveLearningMetadata :=
  { feedback_texts := ["t0"]
    seed_indices := []
    records := initRecords ["t0"] [] none
    prediction_history := [snapA] }

/-- Adjacent snapshots where item 2 misses dimension `d` in the first
snapshot only (drop-vs-placeholder discriminator). -/
def s1 : Snapshot := [(0, [("d", "a")]), (1, [("d", "b")]), (2, [])]

def s2 : Snapshot := [(0, [("d", "a")]), (1, [("d", "b")]), (2, [("d", "a")])]

/-- Adjacent snapshots that disagree on every item for dimension `a` and
agree perfectly on dimension `b`. -/
def t1 : Snapshot := [(0, [("a", "x"), ("b", "x")]), (1, [("a", "y"), ("b", "y")])]

def t2 : Snapshot := [(0, [("a", "y"), ("b", "x")]), (1, [("a", "x"), ("b", "y")])]

/-- Stopping configuration with a full window of 2 and default
thresholds. -/
def cfgW : StoppingConfig := ⟨0, 1, 2, mkRat 99 100, mkRat 95 100⟩

theorem modifyAt_length {α : Type} (l : List α) (i : ℕ) (f : α → α) :
    (modifyAt l i f).length = l.length := by
  induction l generalizing i with
  | nil => rfl
  | cons x xs ih =>
    cases i with
    | zero => rfl
    | succ k => simp [modifyAt, ih]

theorem getD_modifyAt_self {α : Type} (l : List α) (i : ℕ) (f : α → α) (d : α)
    (h : i < l.length) : (modifyAt l i f).getD i d = f (l.getD i d) := by
  induction l generalizing i with
  | nil => simp at h
  | cons x xs ih =>
    cases i with
    | zero => rfl
    | succ k => simpa [modifyAt] using ih k (by simpa using h)

theorem getD_modifyAt_ne {α : Type} (l : List α) (i j : ℕ) (f : α → α) (d : α)
    (h : i ≠ j) : (modifyAt l i f).getD j d = l.getD j d := by
  induction l generalizing i j with
  | nil => rfl
  | cons x xs ih =>
    cases i with
    | zero =>
      cases j with
      | zero => exact absurd rfl h
      | succ k => rfl
    | succ i' =>
      cases j with
      | zero => rfl
      | succ k => simpa [modifyAt] using ih i' k (fun hc => h (by omega))

theorem zip_take_min {α β : Type} (l1 : List α) (l2 : List β) :
    l1.zip l2 = (l1.take (min l1.length l2.length)).zip (l2.take (min l1.length l2.length)) := by
  induction l1 generalizing l2 with
  | nil => simp
  | cons x xs ih =>
    cases l2 with
    | nil => simp
    | cons y ys =>
      simp only [List.zip_cons_cons, List.length_cons]
      rw [Nat.succ_min_succ]
      simpa using ih ys

theorem map_fst_zip_eq_take {α β : Type} (l1 : List α) (l2 : List β) :
    (l1.zip l2).map Prod.fst = l1.take (min l1.length l2.length) := by
  induction l1 generalizing l2 with
  | nil => simp
  | cons x xs ih =>
    cases l2 with
    | nil => simp
    | cons y ys =>
      simp only [List.zip_cons_cons, List.map_cons, List.length_cons]
      rw [Nat.succ_min_succ]
      simpa using ih ys

theorem foldl_markOne_not_mem (L : List (ℕ × DimensionLabelProposal))
    (rs : List MRecord) (j : ℕ) (d : MRecord) (h : j ∉ L.map Prod.fst) :
    (L.foldl markOne rs).getD j d = rs.getD j d := by
  induction L generalizing rs with
  | nil => rfl
  | cons p L' ih =>
    simp only [List.map_cons, List.mem_cons] at h
    push_neg at h
    rw [List.foldl_cons, ih (markOne rs p) h.2]
    exact getD_modifyAt_ne rs p.1 j _ d (fun hc => h.1 hc.symm)

/-! ## Claim C10 -/

/-- Claim C10: after every `apply_labels` call on an in-range index, the
record's `label_source` equals `"seed"` regardless of the `source`
argument, while the `source` field itself receives the argument. -/
theorem C10_apply_labels_label_source_seed (m : ActiveLearningMetadata) (idx : ℕ)
    (labels : List (String × String)) (confs : List (String × ℚ))
    (rat : List (String × String)) (ev : List String)
    (src mid : Option String) (h : idx < m.records.length) :
    ((apply_labels m idx labels confs rat ev src mid).records.getD idx mdef).label_source
        = some "seed"
    ∧ ((apply_labels m idx labels confs rat ev src mid).records.getD idx mdef).source = src := by
  unfold apply_labels
  rw [show ({ m with records := modifyAt m.records idx _ } : ActiveLearningMetadata).records
        = modifyAt m.records idx _ from rfl,
    getD_modifyAt_self m.records idx _ mdef h]
  exact ⟨rfl, rfl⟩

/-- Witness for C10 at a concrete state and a non-seed `source` argument. -/
theorem C10_witness :
    0 < m2.records.length
    ∧ (((apply_labels m2 0 [("severity", "low")] [] [] [] (some "llm") (some "m1")).records.getD
          0 mdef).label_source = some "seed"
        ∧ ((apply_labels m2 0 [("severity", "low")] [] [] [] (some "llm")
            (some "m1")).records.getD 0 mdef).source = some "llm") :=
  ⟨by with_unfolding_all decide,
   C10_apply_labels_label_source_seed m2 0 [("severity", "low")] [] [] [] (some "llm")
     (some "m1") (by with_unfolding_all decide)⟩

/-! ## Claim C3 -/

/-- Counterexample to C3 as stated: `mark_as_labeled` on index/proposal
lists of lengths 2 and 1 does not fail — it partially applies, labeling
record 0 and leaving record 1 untouched. -/
theorem C3_counterexample :
    ((mark_as_labeled m2 [0, 1] [p1]).records.getD 0 mdef).labeled = true
    ∧ ((mark_as_labeled m2 [0, 1] [p1]).records.getD 1 mdef).labeled = false
    ∧ (mark_as_labeled m2 [0, 1] [p1]).records.length = 2 := by
  with_unfolding_all decide

/-- Claim C3 (amended): `mark_as_labeled` raises no length-mismatch error;
it zips the two lists, silently truncating to the shorter one, and leaves
every record whose index is outside the zipped prefix unchanged. -/
theorem C3_mark_as_labeled_truncates (m : ActiveLearningMetadata)
    (idxs : List ℕ) (props : List DimensionLabelProposal) :
    mark_as_labeled m idxs props
      = mark_as_labeled m (idxs.take (min idxs.length props.length))
          (props.take (min idxs.length props.length))
    ∧ ∀ j, j ∉ idxs.take (min idxs.length props.length) →
        (mark_as_labeled m idxs props).records.getD j mdef = m.records.getD j mdef := by
  constructor
  · unfold mark_as_labeled
    rw [← zip_take_min]
  · intro j hj
    unfold mark_as_labeled
    refine foldl_markOne_not_mem _ _ _ _ ?_
    rw [map_fst_zip_eq_take]
    exact hj

/-- Witness for the amended C3 on concrete mismatched lists. -/
theorem C3_amended_witness :
    mark_as_labeled m2 [0, 1] [p1]
      = mark_as_labeled m2 (([0, 1] : List ℕ).take (min ([0, 1] : List ℕ).length [p1].length))
          ([p1].take (min ([0, 1] : List ℕ).length [p1].length))
    ∧ (mark_as_labeled m2 [0, 1] [p1]).records.getD 1 mdef = m2.records.getD 1 mdef :=
  ⟨(C3_mark_as_labeled_truncates m2 [0, 1] [p1]).1,
   (C3_mark_as_labeled_truncates m2 [0, 1] [p1]).2 1 (by with_unfolding_all decide)⟩

/-! ## Claim C1 -/

/-- Claim C1 (code bug): in a batch `[0, 1]` where index 0's oracle
response is unparseable and index 1's parses to `p1`, the skipped
proposal list is zipped against the full index list, so index 0 — the
failed one — is marked labeled and receives index 1's proposal, while
index 1 stays unlabeled. -/
theorem C1_label_batch_misassigns :
    ((label_batch m2 [0, 1] oracle0).records.getD 0 mdef).labeled = true
    ∧ ((label_batch m2 [0, 1] oracle0).records.getD 0 mdef).labels = p1.labels
    ∧ ((label_batch m2 [0, 1] oracle0).records.getD 1 mdef).labeled = false := by
  with_unfolding_all decide

/-! ## Claim C4 -/

/-- Claim C4 (code bug): `save` writes only the records list, so loading
what `save` wrote resets a non-empty prediction history to empty — the
round trip loses the snapshots. -/
theorem C4_save_load_drops_history :
    m4.prediction_history = [snapA]
    ∧ (load (Sum.inl (save m4))).prediction_history = []
    ∧ ([snapA] : List Snapshot) ≠ [] := by
  refine ⟨rfl, rfl, ?_⟩
  with_unfolding_all decide

/-! ## Claim C9 -/

theorem dimScan_veto (window : List Snapshot) (floor_thr : ℚ) (dims : List String)
    (h : ∃ d ∈ dims, ksOf window d ≠ [] ∧ meanQ (ksOf window d) < floor_thr) :
    dimScan window floor_thr dims = none := by
  induction dims with
  | nil => simp at h
  | cons d ds ih =>
    rcases h with ⟨e, he, hks, hmean⟩
    unfold dimScan
    rcases List.mem_cons.mp he with rfl | he2
    · rw [if_neg hks, if_pos hmean]
    · by_cases hd : ksOf window d = []
      · rw [if_pos hd]
        exact ih ⟨e, he2, hks, hmean⟩
      · rw [if_neg hd]
        by_cases hm : meanQ (ksOf window d) < floor_thr
        · rw [if_pos hm]
        · rw [if_neg hm, ih ⟨e, he2, hks, hmean⟩]
          rfl

/-- Claim C5: whenever the window is full and some dimension's mean kappa
over the current window exists and lies below `floor_kappa_threshold`,
`update` resets the stability counter to 0 and returns not-stopped,
regardless of every other dimension. -/
theorem C5_floor_veto (cfg : StoppingConfig) (dims : List String) (st : StopState)
    (preds : Snapshot)
    (hwin : cfg.window_size ≤ (st.history ++ [preds]).length)
    (hveto : ∃ d ∈ dims,
        ksOf (windowOf cfg (st.history ++ [preds])) d ≠ []
        ∧ meanQ (ksOf (windowOf cfg (st.history ++ [preds])) d) < cfg.floor_kappa_threshold) :
    (update cfg dims st preds).2 = false
    ∧ (update cfg dims st preds).1.stable_counter = 0 := by
  unfold update
  rw [if_neg (by omega : ¬ (st.history ++ [preds]).length < cfg.window_size)]
  rw [dimScan_veto _ _ _ hveto]
  exact ⟨rfl, rfl⟩

/-- Witness for C5: dimension `"a"` flips every label between the two
snapshots (mean kappa −1, below the 0.95 floor) while dimension `"b"`
agrees perfectly; `update` resets a counter of 5 to 0 and reports
not-stopped. -/
theorem C5_witness :
    (cfgW.window_size ≤ ((⟨[t1], 5⟩ : StopState).history ++ [t2]).length
      ∧ ∃ d ∈ ["a", "b"],
          ksOf (windowOf cfgW ((⟨[t1], 5⟩ : StopState).history ++ [t2])) d ≠ []
          ∧ meanQ (ksOf (windowOf cfgW ((⟨[t1], 5⟩ : StopState).history ++ [t2])) d)
              < cfgW.floor_kappa_threshold)
    ∧ ((update cfgW ["a", "b"] ⟨[t1], 5⟩ t2).2 = false
        ∧ (update cfgW ["a", "b"] ⟨[t1], 5⟩ t2).1.stable_counter = 0) := by
  have h1 : cfgW.window_size ≤ ((⟨[t1], 5⟩ : StopState).history ++ [t2]).length := by
    with_unfolding_all decide
  have h2 : ∃ d ∈ ["a", "b"],
      ksOf (windowOf cfgW ((⟨[t1], 5⟩ : StopState).history ++ [t2])) d ≠ []
      ∧ meanQ (ksOf (windowOf cfgW ((⟨[t1], 5⟩ : StopState).history ++ [t2])) d)
          < cfgW.floor_kappa_threshold := by
    with_unfolding_all decide
  exact ⟨⟨h1, h2⟩, C5_floor_veto cfgW ["a", "b"] ⟨[t1], 5⟩ t2 h1 h2⟩

/-! ## Claim C6 -/

theorem zip_tail_map {α : Type} (d : α) :
    ∀ w : List α,
      w.zip w.tail = (List.range (w.length - 1)).map (fun i => (w.getD i d, w.getD (i + 1) d))
  | [] => by simp
  | [s] => by simp
  | s :: t :: rest => by
    have ih := zip_tail_map d (t :: rest)
    simp only [List.tail_cons] at ih
    show (s, t) :: ((t :: rest).zip rest) = _
    rw [ih, show (t :: rest).length - 1 = rest.length by simp,
      show (s :: t :: rest).length - 1 = rest.length + 1 by simp,
      List.range_succ_eq_map, List.map_cons, List.map_map]
    rfl

theorem cohenKappa_eq_amended (y1 y2 : List String) :
    cohenKappa y1 y2 = cohenKappaAmended y1 y2 := by
  have hperm : List.Perm (kappaCats y1 y2) ((y1 ++ y2).dedup) := List.mergeSort_perm _ _
  have hsum :
      ((kappaCats y1 y2).map (fun c => (y1.count c : ℚ) * (y2.count c : ℚ))).sum
        = (((y1 ++ y2).dedup).map (fun c => (y1.count c : ℚ) * (y2.count c : ℚ))).sum :=
    List.Perm.sum_eq (hperm.map _)
  simp only [cohenKappa, cohenKappaAmended, hsum]

theorem safe_kappa_eq_amended (y1 y2 : List String) :
    safe_kappa y1 y2 =
      if 2 ≤ y1.length ∧ y1.length = y2.length ∧ 2 ≤ distinct y1 ∧ 2 ≤ distinct y2
      then some (cohenKappaAmended y1 y2) else none := by
  unfold safe_kappa
  by_cases h1 : y1.length < 2 ∨ y1.length ≠ y2.length
  · rw [if_pos h1, if_neg]
    rintro ⟨ha, hb, -, -⟩
    rcases h1 with h | h
    · omega
    · exact h hb
  · rw [if_neg h1]
    push_neg at h1
    by_cases h2 : distinct y1 < 2 ∨ distinct y2 < 2
    · rw [if_pos h2, if_neg]
      rintro ⟨-, -, hc, hd⟩
      rcases h2 with h | h <;> omega
    · push_neg at h2
      rw [if_neg (by rintro (h | h) <;> omega), if_pos ⟨by omega, h1.2, by omega, by omega⟩]
      rw [cohenKappa_eq_amended]

/-- Claim C6 (amended): for every window and dimension, the pairwise
kappas that `update` averages are computed from each snapshot's own item
list restricted to items carrying the dimension — missing labels are
dropped, not replaced by a placeholder — and pairs with mismatched
lengths, fewer than 2 items, or fewer than 2 distinct labels on either
side are skipped before averaging. -/
theorem C6_per_dim_kappa_amended (window : List Snapshot) (dim : String) :
    ksOf window dim = ksOfAmended window dim
    ∧ dimMeanKappa window dim = dimMeanKappaAmended window dim := by
  have hks : ksOf window dim = ksOfAmended window dim := by
    unfold ksOf ksOfAmended
    rw [zip_tail_map ([] : Snapshot) window, List.filterMap_map]
    congr 1
    funext i
    exact safe_kappa_eq_amended _ _
  refine ⟨hks, ?_⟩
  simp only [dimMeanKappa, dimMeanKappaAmended, hks]

/-- Counterexample to C6 as stated: on the adjacent snapshots `s1`, `s2`
(item 2 lacks dimension `d` in `s1` only), the code's per-dimension mean
kappa is `none` — the mismatched-length pair is discarded — while the
spec's placeholder treatment yields `1/2`. -/
theorem C6_counterexample :
    dimMeanKappa [s1, s2] "d" = none
    ∧ dimMeanKappaSpec [s1, s2] "d" = some (mkRat 1 2)
    ∧ dimMeanKappa [s1, s2] "d" ≠ dimMeanKappaSpec [s1, s2] "d" := by
  refine ⟨?_, ?_, ?_⟩ <;> with_unfolding_all decide

/-! ## Fold-min/max and argsort infrastructure -/

theorem foldl_min_le_init (xs : List ℚ) (x : ℚ) : xs.foldl min x ≤ x := by
  induction xs generalizing x with
  | nil => exact le_refl x
  | cons y ys ih =>
    simp only [List.foldl_cons]
    exact (ih (min x y)).trans (min_le_left x y)

theorem foldl_min_le_mem (xs : List ℚ) : ∀ x v : ℚ, v ∈ xs → xs.foldl min x ≤ v := by
  induction xs with
  | nil => intro x v hv; simp at hv
  | cons y ys ih =>
    intro x v hv
    simp only [List.foldl_cons]
    rcases List.mem_cons.mp hv with rfl | hv2
    · exact (foldl_min_le_init ys (min x v)).trans (min_le_right x v)
    · exact ih (min x y) v hv2

theorem foldl_min_mem (xs : List ℚ) : ∀ x : ℚ, xs.foldl min x ∈ x :: xs := by
  induction xs with
  | nil => intro x; simp
  | cons y ys ih =>
    intro x
    simp only [List.foldl_cons]
    rcases List.mem_cons.mp (ih (min x y)) with h1 | h2
    · rcases min_cases x y with ⟨he, -⟩ | ⟨he, -⟩
      · rw [h1, he]
        exact List.mem_cons_self _ _
      · rw [h1, he]
        exact List.mem_cons_of_mem _ (List.mem_cons_self _ _)
    · exact List.mem_cons_of_mem _ (List.mem_cons_of_mem _ h2)

theorem listMin_le (l : List ℚ) (v : ℚ) (hv : v ∈ l) : listMin l ≤ v := by
  cases l with
  | nil => simp at hv
  | cons x xs =>
    rcases List.mem_cons.mp hv with rfl | hv2
    · exact foldl_min_le_init xs v
    · exact foldl_min_le_mem xs x v hv2

theorem listMin_mem (l : List ℚ) (h : l ≠ []) : listMin l ∈ l := by
  cases l with
  | nil => exact absurd rfl h
  | cons x xs => exact foldl_min_mem xs x

theorem foldl_max_ge_init (xs : List ℚ) (x : ℚ) : x ≤ xs.foldl max x := by
  induction xs generalizing x with
  | nil => exact le_refl x
  | cons y ys ih =>
    simp only [List.foldl_cons]
    exact (le_max_left x y).trans (ih (max x y))

theorem foldl_max_ge_mem (xs : List ℚ) : ∀ x v : ℚ, v ∈ xs → v ≤ xs.foldl max x := by
  induction xs with
  | nil => intro x v hv; simp at hv
  | cons y ys ih =>
    intro x v hv
    simp only [List.foldl_cons]
    rcases List.mem_cons.mp hv with rfl | hv2
    · exact (le_max_right x v).trans (foldl_max_ge_init ys (max x v))
    · exact ih (max x y) v hv2

theorem listMax_ge (l : List ℚ) (v : ℚ) (hv : v ∈ l) : v ≤ listMax l := by
  cases l with
  | nil => simp at hv
  | cons x xs =>
    rcases List.mem_cons.mp hv with rfl | hv2
    · exact foldl_max_ge_init xs v
    · exact foldl_max_ge_mem xs x v hv2

theorem lexAsc_trans {α : Type} [LinearOrder α] (key : ℕ → α) (a b c : ℕ)
    (hab : lexAsc key a b) (hbc : lexAsc key b c) : lexAsc key a c := by
  rcases hab with h1 | ⟨h1, h1i⟩
  · rcases hbc with h2 | ⟨h2, h2i⟩
    · exact Or.inl (h1.trans h2)
    · exact Or.inl (h2 ▸ h1)
  · rcases hbc with h2 | ⟨h2, h2i⟩
    · exact Or.inl (h1 ▸ h2)
    · exact Or.inr ⟨h1.trans h2, h1i.trans h2i⟩

theorem lexAsc_total {α : Type} [LinearOrder α] (key : ℕ → α) (a b : ℕ) :
    lexAsc key a b ∨ lexAsc key b a := by
  rcases lt_trichotomy (key a) (key b) with h | h | h
  · exact Or.inl (Or.inl h)
  · rcases Nat.le_total a b with hi | hi
    · exact Or.inl (Or.inr ⟨h, hi⟩)
    · exact Or.inr (Or.inr ⟨h.symm, hi⟩)
  · exact Or.inr (Or.inl h)

theorem lexAsc_antisymm {α : Type} [LinearOrder α] (key : ℕ → α) (a b : ℕ)
    (hab : lexAsc key a b) (hba : lexAsc key b a) : a = b := by
  rcases hab with h1 | ⟨h1, h1i⟩
  · rcases hba with h2 | ⟨h2, h2i⟩
    · exact absurd (h1.trans h2) (lt_irrefl _)
    · exact absurd h1 (h2 ▸ lt_irrefl _)
  · rcases hba with h2 | ⟨h2, h2i⟩
    · exact absurd h2 (h1 ▸ lt_irrefl _)
    · omega

theorem lexAsc_le {α : Type} [LinearOrder α] (key : ℕ → α) (a b : ℕ)
    (h : lexAsc key a b) : key a ≤ key b := by
  rcases h with h | ⟨h, -⟩
  · exact le_of_lt h
  · exact le_of_eq h

theorem lexDesc_trans (key : ℕ → ℚ) (a b c : ℕ)
    (hab : lexDesc key a b) (hbc : lexDesc key b c) : lexDesc key a c := by
  rcases hab with h1 | ⟨h1, h1i⟩
  · rcases hbc with h2 | ⟨h2, h2i⟩
    · exact Or.inl (h2.trans h1)
    · exact Or.inl (h2 ▸ h1)
  · rcases hbc with h2 | ⟨h2, h2i⟩
    · exact Or.inl (h1 ▸ h2)
    · exact Or.inr ⟨h1.trans h2, h1i.trans h2i⟩

theorem lexDesc_total (key : ℕ → ℚ) (a b : ℕ) :
    lexDesc key a b ∨ lexDesc key b a := by
  rcases lt_trichotomy (key a) (key b) with h | h | h
  · exact Or.inr (Or.inl h)
  · rcases Nat.le_total a b with hi | hi
    · exact Or.inl (Or.inr ⟨h, hi⟩)
    · exact Or.inr (Or.inr ⟨h.symm, hi⟩)
  · exact Or.inl (Or.inl h)

theorem lexDesc_antisymm (key : ℕ → ℚ) (a b : ℕ)
    (hab : lexDesc key a b) (hba : lexDesc key b a) : a = b := by
  rcases hab with h1 | ⟨h1, h1i⟩
  · rcases hba with h2 | ⟨h2, h2i⟩
    · exact absurd (h1.trans h2) (lt_irrefl _)
    · exact absurd h1 (h2 ▸ lt_irrefl _)
  · rcases hba with h2 | ⟨h2, h2i⟩
    · exact absurd h2 (h1 ▸ lt_irrefl _)
    · omega

theorem lexDesc_ge (key : ℕ → ℚ) (a b : ℕ) (h : lexDesc key a b) : key b ≤ key a := by
  rcases h with h | ⟨h, -⟩
  · exact le_of_lt h
  · exact le_of_eq h.symm

theorem argsortAsc_perm {α : Type} [LinearOrder α] (key : ℕ → α) (n : ℕ) :
    List.Perm (argsortAsc key n) (List.range n) :=
  List.mergeSort_perm _ _

theorem argsortAsc_length {α : Type} [LinearOrder α] (key : ℕ → α) (n : ℕ) :
    (argsortAsc key n).length = n := by
  unfold argsortAsc
  rw [List.length_mergeSort, List.length_range]

theorem argsortAsc_mem {α : Type} [LinearOrder α] (key : ℕ → α) (n i : ℕ)
    (h : i ∈ argsortAsc key n) : i < n :=
  List.mem_range.mp ((argsortAsc_perm key n).mem_iff.mp h)

theorem argsortAsc_sorted {α : Type} [LinearOrder α] (key : ℕ → α) (n : ℕ) :
    (argsortAsc key n).Pairwise (lexAsc key) := by
  have h := @List.sorted_mergeSort ℕ (fun i j => decide (lexAsc key i j))
    (fun a b c hab hbc =>
      decide_eq_true (lexAsc_trans key a b c (of_decide_eq_true hab) (of_decide_eq_true hbc)))
    (fun a b => by
      rcases lexAsc_total key a b with h | h
      · simp [decide_eq_true h]
      · simp [decide_eq_true h])
    (List.range n)
  exact h.imp (fun hab => of_decide_eq_true hab)

theorem argsortDesc_perm (key : ℕ → ℚ) (n : ℕ) :
    List.Perm (argsortDesc key n) (List.range n) :=
  List.mergeSort_perm _ _

theorem argsortDesc_length (key : ℕ → ℚ) (n : ℕ) : (argsortDesc key n).length = n := by
  unfold argsortDesc
  rw [List.length_mergeSort, List.length_range]

theorem argsortDesc_mem (key : ℕ → ℚ) (n i : ℕ) (h : i ∈ argsortDesc key n) : i < n :=
  List.mem_range.mp ((argsortDesc_perm key n).mem_iff.mp h)

theorem argsortDesc_sorted (key : ℕ → ℚ) (n : ℕ) :
    (argsortDesc key n).Pairwise (lexDesc key) := by
  have h := @List.sorted_mergeSort ℕ (fun i j => decide (lexDesc key i j))
    (fun a b c hab hbc =>
      decide_eq_true (lexDesc_trans key a b c (of_decide_eq_true hab) (of_decide_eq_true hbc)))
    (fun a b => by
      rcases lexDesc_total key a b with h | h
      · simp [decide_eq_true h]
      · simp [decide_eq_true h])
    (List.range n)
  exact h.imp (fun hab => of_decide_eq_true hab)

/-- An argsort is the unique list that is a permutation of `range n` and
sorted for the (antisymmetric) descending lexicographic order. -/
theorem argsortDesc_eq_of_sorted_perm (key : ℕ → ℚ) (n : ℕ) (L : List ℕ)
    (hp : List.Perm L (List.range n)) (hs : L.Pairwise (lexDesc key)) :
    argsortDesc key n = L := by
  haveI : IsAntisymm ℕ (lexDesc key) := ⟨fun a b => lexDesc_antisymm key a b⟩
  exact List.eq_of_perm_of_sorted ((argsortDesc_perm key n).trans hp.symm)
    (argsortDesc_sorted key n) hs

/-- Two score functions whose descending lexicographic comparisons agree
on `0..n-1` have the same argsort. -/
theorem argsortDesc_congr (f g : ℕ → ℚ) (n : ℕ)
    (h : ∀ i j, i < n → j < n → (lexDesc f i j ↔ lexDesc g i j)) :
    argsortDesc g n = argsortDesc f n := by
  apply argsortDesc_eq_of_sorted_perm g n (argsortDesc f n) (argsortDesc_perm f n)
  refine (argsortDesc_sorted f n).imp_of_mem ?_
  intro a b ha hb hab
  exact (h a b (argsortDesc_mem f n a ha) (argsortDesc_mem f n b hb)).mp hab

/-! ## Claim C2 -/

theorem lcKey_top_iff (records : List QRecord) (i : ℕ) :
    lcKey records i = ⊤ ↔ (qget records i).labeled = true := by
  unfold lcKey
  by_cases hl : (qget records i).labeled
  · simp [hl]
  · simp [hl, WithTop.coe_ne_top]

theorem lcKey_eq_coe (records : List QRecord) (i : ℕ)
    (h : (qget records i).labeled = false) :
    lcKey records i = (lcScore records i : WithTop ℚ) := by
  unfold lcKey lcScore
  rw [if_neg (by simp [h])]

theorem unlabeledIdx_length_le (records : List QRecord) :
    (unlabeledIdx records).length ≤ records.length := by
  unfold unlabeledIdx
  exact (List.length_filter_le _ _).trans (by rw [List.length_range])

theorem take_all_unlabeled (records : List QRecord) (n : ℕ)
    (h : n ≤ (unlabeledIdx records).length) :
    ∀ i ∈ least_confidence_sampling records n, (qget records i).labeled = false := by
  intro i hi
  by_contra hlabne
  have hlab : (qget records i).labeled = true := by
    cases hb : (qget records i).labeled
    · exact absurd hb hlabne
    · rfl
  unfold least_confidence_sampling at hi
  set key := lcKey records with hkey
  set L := argsortAsc key records.length with hL
  have hLlen : L.length = records.length := argsortAsc_length key records.length
  obtain ⟨a, ha, hLa⟩ := List.mem_iff_getElem.mp hi
  have ha2 : a < n := by
    have := List.length_take n L
    omega
  have haL : a < L.length := by
    have := List.length_take n L
    omega
  have hLa2 : L[a] = i := by rw [← List.getElem_take L (h := ha), hLa]
  have hpw := argsortAsc_sorted key records.length
  have hdropAll : ∀ x ∈ L.drop a, (qget records x).labeled = true := by
    intro x hx
    obtain ⟨k, hk, hxk⟩ := List.mem_iff_getElem.mp hx
    have hk2 : a + k < L.length := by
      have := List.length_drop a L
      omega
    have hxk2 : L[a + k] = x := by rw [← List.getElem_drop L (h := hk), hxk]
    rcases Nat.eq_zero_or_pos k with rfl | hkpos
    · rw [← hxk2]
      simpa [hLa2] using hlab
    · have hrel := (List.pairwise_iff_getElem.mp hpw) a (a + k) haL hk2 (by omega)
      have htop : key L[a] = ⊤ := by
        rw [hLa2]
        exact (lcKey_top_iff records i).mpr hlab
      have hle := lexAsc_le key _ _ hrel
      rw [htop] at hle
      have : key L[a + k] = ⊤ := top_le_iff.mp hle
      rw [hxk2] at this
      exact (lcKey_top_iff records x).mp this
  have hcnt1 : (L.drop a).countP (fun x => (qget records x).labeled) = (L.drop a).length :=
    List.countP_eq_length.mpr (fun x hx => hdropAll x hx)
  have hcnt2 : L.countP (fun x => (qget records x).labeled)
      = (L.take a).countP (fun x => (qget records x).labeled)
        + (L.drop a).countP (fun x => (qget records x).labeled) := by
    conv_lhs => rw [← List.take_append_drop a L]
    exact List.countP_append _ _ _
  have hcnt3 : L.countP (fun x => (qget records x).labeled)
      = (List.range records.length).countP (fun x => (qget records x).labeled) :=
    List.Perm.countP_eq _ (hL ▸ argsortAsc_perm key records.length)
  have hsplit := List.length_eq_countP_add_countP
    (fun x => (qget records x).labeled) (List.range records.length)
  have hulen : (unlabeledIdx records).length
      = (List.range records.length).countP (fun x => !(qget records x).labeled) := by
    unfold unlabeledIdx
    rw [← List.countP_eq_length_filter]
  have hsame : (List.range records.length).countP (fun x => !(qget records x).labeled)
      = (List.range records.length).countP (fun x => decide ¬(qget records x).labeled = true) := by
    refine List.countP_congr ?_
    intro x _
    by_cases hx : (qget records x).labeled
    · simp [hx]
    · simp [hx]
  have hdlen : (L.drop a).length = records.length - a := by
    rw [List.length_drop, hLlen]
  rw [List.length_range] at hsplit
  omega

/-- Claim C2 (amended): whenever `n` does not exceed the number of
unlabeled records, `least_confidence_sampling` returns exactly
`min n #unlabeled` indices, none labeled, sorted by ascending confidence
score, where an unlabeled record's score is the minimum of its
per-dimension confidences and a record with no confidence entries scores
0.  (For `n` above `#unlabeled` the returned list is padded with labeled
indices up to `min n #records`.) -/
theorem C2_least_confidence_amended (records : List QRecord) (n : ℕ)
    (h : n ≤ (unlabeledIdx records).length) : lcSpecHolds records n := by
  have hall := take_all_unlabeled records n h
  have huN := unlabeledIdx_length_le records
  refine ⟨?_, hall, ?_, ?_⟩
  · show (least_confidence_sampling records n).length = _
    unfold least_confidence_sampling
    rw [List.length_take, argsortAsc_length]
    omega
  · have hpw : (least_confidence_sampling records n).Pairwise (lexAsc (lcKey records)) :=
      List.Pairwise.sublist (List.take_sublist n _)
        (argsortAsc_sorted (lcKey records) records.length)
    refine hpw.imp_of_mem ?_
    intro a b ha hb hab
    have h1 := lexAsc_le _ a b hab
    rw [lcKey_eq_coe records a (hall a ha), lcKey_eq_coe records b (hall b hb)] at h1
    exact WithTop.coe_le_coe.mp h1
  · intro i hi
    constructor
    · intro hempty
      unfold lcScore confScore
      rw [if_pos hempty]
    · intro hne
      have hmapne : (qget records i).confidences.map Prod.snd ≠ [] := by simpa using hne
      constructor
      · show lcScore records i ∈ _
        unfold lcScore confScore
        rw [if_neg hne]
        exact listMin_mem _ hmapne
      · intro v hv
        unfold lcScore confScore
        rw [if_neg hne]
        exact listMin_le _ v hv

/-- Counterexample to C2 as stated: with one labeled and one unlabeled
record and `n = 2`, the returned list has 2 entries — not
`min(n, #unlabeled) = 1` — and contains the labeled index 0 (whose score
was set to infinity, which sorts last but is not removed). -/
theorem C2_counterexample :
    least_confidence_sampling [rL, rU] 2 = [1, 0]
    ∧ (qget [rL, rU] 0).labeled = true
    ∧ (least_confidence_sampling [rL, rU] 2).length ≠ min 2 (unlabeledIdx [rL, rU]).length := by
  refine ⟨?_, ?_, ?_⟩ <;> with_unfolding_all decide

/-- Witness for the amended C2 on three records (two unlabeled with
confidences, one labeled), `n = 2`. -/
theorem C2_amended_witness :
    2 ≤ (unlabeledIdx [rC2, rL, rC1]).length ∧ lcSpecHolds [rC2, rL, rC1] 2 :=
  ⟨by with_unfolding_all decide,
   C2_least_confidence_amended [rC2, rL, rC1] 2 (by with_unfolding_all decide)⟩

/-! ## Claim C8 -/

/-- Claim C8 (code bug): with records `[rU, rM]` — index 0 unlabeled
without MC samples, index 1 unlabeled with MC samples — the score
computed from index 1's samples is assigned to index 0 (the first
unlabeled slot), index 1 scores 0, and `bald_sampling` returns the
sample-less index 0 as its top-1 pick even though a sample-bearing item
is available. -/
theorem C8_bald_score_misassigned :
    assignScores (unlabeledIdx [rU, rM]) (mcVals mi1 [rU, rM]) 0
        = mi1 (qget [rU, rM] 1).mc_probs
    ∧ assignScores (unlabeledIdx [rU, rM]) (mcVals mi1 [rU, rM]) 1 = 0
    ∧ (qget [rU, rM] 0).mc_probs = []
    ∧ (qget [rU, rM] 1).mc_probs ≠ []
    ∧ bald_sampling mi1 [rU, rM] 1 = [0] := by
  refine ⟨?_, ?_, ?_, ?_, ?_⟩ <;> with_unfolding_all decide

/-! ## Claim C7 -/

/-- Counterexample to C7 as stated.  λ = 0: on a single unlabeled record
without MC samples, `bald_sampling` returns `[]` while the hybrid returns
`[0]`.  λ = 1: with one labeled and one unlabeled record and `n = 2`,
pure coreset selection stays inside the unlabeled pool (in the source,
`np.argpartition` raises there), while the hybrid pads with the labeled
index. -/
theorem C7_counterexample :
    bald_sampling mi1 [rU] 1 = []
    ∧ hybrid_coreset_bald_sampling mi1 sqDist [rU] 1 0 = [0]
    ∧ hybrid_coreset_bald_sampling mi1 sqDist [rU] 1 0 ≠ bald_sampling mi1 [rU] 1
    ∧ greedy_coreset_sampling sqDist [rL, rU] 2 = [1]
    ∧ hybrid_coreset_bald_sampling mi1 sqDist [rL, rU] 2 1 = [1, 0]
    ∧ hybrid_coreset_bald_sampling mi1 sqDist [rL, rU] 2 1
        ≠ greedy_coreset_sampling sqDist [rL, rU] 2 := by
  refine ⟨?_, ?_, ?_, ?_, ?_, ?_⟩ <;> with_unfolding_all decide

theorem epsQ_pos : 0 < epsQ := by norm_num [epsQ]

theorem div_eq_div_iff_pos {a b c : ℚ} (hc : 0 < c) : a / c = b / c ↔ a = b := by
  constructor
  · intro h
    have h2 := congrArg (fun x => x * c) h
    simpa [div_mul_cancel₀, ne_of_gt hc] using h2
  · intro h
    rw [h]

theorem sqDist_nonneg (a b : List ℚ) : 0 ≤ sqDist a b := by
  unfold sqDist
  apply List.sum_nonneg
  intro x hx
  rcases List.mem_map.mp hx with ⟨p, -, rfl⟩
  exact mul_self_nonneg _

theorem lookup_mem_pair {α β : Type} [BEq α] (l : List (α × β)) (a : α) (v : β)
    (h : List.lookup a l = some v) : ∃ k, (k, v) ∈ l := by
  induction l with
  | nil => simp [List.lookup] at h
  | cons p t ih =>
    obtain ⟨k, b⟩ := p
    cases hb : a == k
    · simp only [List.lookup, hb] at h
      obtain ⟨k2, hk2⟩ := ih h
      exact ⟨k2, List.mem_cons_of_mem _ hk2⟩
    · simp only [List.lookup, hb] at h
      exact ⟨k, by simp [Option.some_inj.mp h]⟩

theorem mem_unlabeledIdx (records : List QRecord) (i : ℕ) :
    i ∈ unlabeledIdx records ↔ i < records.length ∧ (qget records i).labeled = false := by
  unfold unlabeledIdx
  rw [List.mem_filter, List.mem_range]
  simp

theorem mem_labeledIdx (records : List QRecord) (i : ℕ) :
    i ∈ labeledIdx records ↔ i < records.length ∧ (qget records i).labeled = true := by
  unfold labeledIdx
  rw [List.mem_filter, List.mem_range]

theorem mcVals_nonneg (mi : List (List ℚ) → ℚ) (records : List QRecord)
    (Hmi : ∀ mc, 0 ≤ mi mc) : ∀ w ∈ mcVals mi records, 0 ≤ w := by
  intro w hw
  unfold mcVals at hw
  rcases List.mem_filterMap.mp hw with ⟨i, -, hcond⟩
  by_cases hc : (qget records i).mc_probs = []
  · rw [if_pos hc] at hcond
    exact absurd hcond (by simp)
  · rw [if_neg hc] at hcond
    rw [← Option.some_inj.mp hcond]
    exact Hmi _

theorem baldRaw_nonneg (mi : List (List ℚ) → ℚ) (records : List QRecord)
    (Hmi : ∀ mc, 0 ≤ mi mc) (i : ℕ) : 0 ≤ baldRaw mi records i := by
  unfold baldRaw assignScores
  cases hl : List.lookup i ((unlabeledIdx records).zip (mcVals mi records)) with
  | none => simp
  | some v =>
    simp only [Option.getD_some]
    obtain ⟨k, hk⟩ := lookup_mem_pair _ _ _ hl
    exact mcVals_nonneg mi records Hmi v (List.of_mem_zip hk).2

theorem getD_mem_of_lt (l : List ℕ) (k : ℕ) (h : k < l.length) : l.getD k 0 ∈ l := by
  rw [List.getD_eq_getElem l 0 h]
  exact List.getElem_mem h

theorem sorted_getD_lt (l : List ℕ) (hs : l.Pairwise (· < ·)) (k1 k2 : ℕ)
    (h1 : k1 < l.length) (h2 : k2 < l.length) (hk : k1 < k2) :
    l.getD k1 0 < l.getD k2 0 := by
  rw [List.getD_eq_getElem l 0 h1, List.getD_eq_getElem l 0 h2]
  exact List.pairwise_iff_getElem.mp hs k1 k2 h1 h2 hk

theorem map_getD_range {α : Type} (l : List α) (d : α) :
    (List.range l.length).map (fun k => l.getD k d) = l := by
  apply List.ext_getElem
  · simp
  · intro i h1 h2
    simp only [List.getElem_map, List.getElem_range]
    exact List.getD_eq_getElem l d h2

theorem unlabeledIdx_sorted (records : List QRecord) :
    (unlabeledIdx records).Pairwise (· < ·) :=
  List.Pairwise.filter _ (List.pairwise_lt_range records.length)

theorem labeledIdx_sorted (records : List QRecord) :
    (labeledIdx records).Pairwise (· < ·) :=
  List.Pairwise.filter _ (List.pairwise_lt_range records.length)

theorem ul_lab_perm (records : List QRecord) :
    List.Perm (unlabeledIdx records ++ labeledIdx records) (List.range records.length) := by
  have h := List.filter_append_perm (fun i => !(qget records i).labeled)
    (List.range records.length)
  have he : (List.range records.length).filter (fun x => !(!(qget records x).labeled))
      = labeledIdx records := by
    unfold labeledIdx
    apply List.filter_congr
    intro x _
    simp
  unfold unlabeledIdx
  rw [← he]
  exact h

/-- The λ = 0 hybrid scores: −1 on labeled slots, the hybrid-normalised
BALD score elsewhere (provided some unlabeled record has MC samples). -/
theorem hybridCombined_zero (mi : List (List ℚ) → ℚ) (dist : List ℚ → List ℚ → ℚ)
    (records : List QRecord) (hvals : mcVals mi records ≠ []) (x : ℕ) :
    hybridCombined mi dist records 0 x
      = if (qget records x).labeled then (-1 : ℚ)
        else baldRaw mi records x / (hybridBaldM mi records + epsQ) := by
  unfold hybridCombined hybridBald1
  rw [if_neg hvals]
  by_cases hx : (qget records x).labeled
  · rw [if_pos hx, if_pos hx]
  · rw [if_neg hx, if_neg hx]
    have hclip : max 0 (min 1 (0 : ℚ)) = 0 := by norm_num
    rw [hclip]
    ring

/-- The scores `bald_sampling` sorts by: −1 normalised on labeled slots,
the BALD-normalised score elsewhere. -/
theorem baldFinal_eq (mi : List (List ℚ) → ℚ) (records : List QRecord) (x : ℕ) :
    baldFinal mi records x
      = if (qget records x).labeled then (-1 : ℚ) / (baldM mi records + epsQ)
        else baldRaw mi records x / (baldM mi records + epsQ) := by
  unfold baldFinal baldWithNeg
  by_cases hx : (qget records x).labeled
  · rw [if_pos hx, if_pos hx]
  · rw [if_neg hx, if_neg hx]

theorem baldM_add_eps_pos (mi : List (List ℚ) → ℚ) (records : List QRecord)
    (Hmi : ∀ mc, 0 ≤ mi mc) (hul : unlabeledIdx records ≠ []) :
    0 < baldM mi records + epsQ := by
  obtain ⟨i0, hi0⟩ := List.exists_mem_of_ne_nil _ hul
  obtain ⟨hi0N, hi0lab⟩ := (mem_unlabeledIdx records i0).mp hi0
  have hmem : baldWithNeg mi records i0 ∈ (List.range records.length).map (baldWithNeg mi records) :=
    List.mem_map_of_mem _ (List.mem_range.mpr hi0N)
  have h1 : 0 ≤ baldWithNeg mi records i0 := by
    unfold baldWithNeg
    rw [hi0lab]
    simpa using baldRaw_nonneg mi records Hmi i0
  have h2 := listMax_ge _ _ hmem
  have := epsQ_pos
  unfold baldM
  linarith

theorem hybridBaldM_add_eps_pos (mi : List (List ℚ) → ℚ) (records : List QRecord)
    (Hmi : ∀ mc, 0 ≤ mi mc) (hul : unlabeledIdx records ≠ []) :
    0 < hybridBaldM mi records + epsQ := by
  obtain ⟨i0, hi0⟩ := List.exists_mem_of_ne_nil _ hul
  obtain ⟨hi0N, -⟩ := (mem_unlabeledIdx records i0).mp hi0
  have hmem : baldRaw mi records i0 ∈ (List.range records.length).map (baldRaw mi records) :=
    List.mem_map_of_mem _ (List.mem_range.mpr hi0N)
  have h1 := baldRaw_nonneg mi records Hmi i0
  have h2 := listMax_ge _ _ hmem
  have := epsQ_pos
  unfold hybridBaldM
  linarith

/-- λ = 0 reduces the hybrid to BALD sampling whenever some unlabeled
record carries MC samples. -/
theorem hybrid_zero_eq_bald (mi : List (List ℚ) → ℚ) (dist : List ℚ → List ℚ → ℚ)
    (records : List QRecord) (n : ℕ)
    (Hmi : ∀ mc, 0 ≤ mi mc) (hvals : mcVals mi records ≠ []) :
    hybrid_coreset_bald_sampling mi dist records n 0 = bald_sampling mi records n := by
  unfold hybrid_coreset_bald_sampling bald_sampling
  by_cases hul : unlabeledIdx records = []
  · rw [if_pos hul, if_pos hul]
  · rw [if_neg hul, if_neg hul, if_neg hvals]
    congr 1
    have hmB := baldM_add_eps_pos mi records Hmi hul
    have hmH := hybridBaldM_add_eps_pos mi records Hmi hul
    apply argsortDesc_congr
    intro i j hi hj
    unfold lexDesc
    rw [baldFinal_eq mi records i, baldFinal_eq mi records j,
      hybridCombined_zero mi dist records hvals i, hybridCombined_zero mi dist records hvals j]
    by_cases hLi : (qget records i).labeled <;> by_cases hLj : (qget records j).labeled
    · rw [if_pos hLi, if_pos hLj, if_pos hLi, if_pos hLj]
      constructor
      · rintro (h | ⟨-, hij⟩)
        · exact absurd h (lt_irrefl _)
        · exact Or.inr ⟨rfl, hij⟩
      · rintro (h | ⟨-, hij⟩)
        · exact absurd h (lt_irrefl _)
        · exact Or.inr ⟨rfl, hij⟩
    · -- i labeled, j unlabeled: both orders are false
      rw [if_pos hLi, if_neg hLj, if_pos hLi, if_neg hLj]
      have hjn := baldRaw_nonneg mi records Hmi j
      have hnegB : (-1 : ℚ) / (baldM mi records + epsQ) < 0 := by
        apply div_neg_of_neg_of_pos (by norm_num) hmB
      have hposB : 0 ≤ baldRaw mi records j / (baldM mi records + epsQ) :=
        div_nonneg hjn (le_of_lt hmB)
      have hposH : 0 ≤ baldRaw mi records j / (hybridBaldM mi records + epsQ) :=
        div_nonneg hjn (le_of_lt hmH)
      constructor
      · rintro (h | ⟨h, -⟩)
        · linarith
        · linarith
      · rintro (h | ⟨h, -⟩)
        · linarith
        · linarith
    · -- i unlabeled, j labeled: both orders are true
      rw [if_neg hLi, if_pos hLj, if_neg hLi, if_pos hLj]
      have hin := baldRaw_nonneg mi records Hmi i
      have hnegB : (-1 : ℚ) / (baldM mi records + epsQ) < 0 := by
        apply div_neg_of_neg_of_pos (by norm_num) hmB
      have hposB : 0 ≤ baldRaw mi records i / (baldM mi records + epsQ) :=
        div_nonneg hin (le_of_lt hmB)
      have hposH : 0 ≤ baldRaw mi records i / (hybridBaldM mi records + epsQ) :=
        div_nonneg hin (le_of_lt hmH)
      constructor
      · intro h0
        exact Or.inl (by linarith)
      · intro h0
        exact Or.inl (by linarith)
    · -- both unlabeled: comparisons transfer across the two normalisations
      rw [if_neg hLi, if_neg hLj, if_neg hLi, if_neg hLj]
      constructor
      · rintro (h | ⟨h, hij⟩)
        · exact Or.inl ((div_lt_div_iff_of_pos_right hmH).mpr
            ((div_lt_div_iff_of_pos_right hmB).mp h))
        · exact Or.inr ⟨(div_eq_div_iff_pos hmH).mpr ((div_eq_div_iff_pos hmB).mp h), hij⟩
      · rintro (h | ⟨h, hij⟩)
        · exact Or.inl ((div_lt_div_iff_of_pos_right hmB).mpr
            ((div_lt_div_iff_of_pos_right hmH).mp h))
        · exact Or.inr ⟨(div_eq_div_iff_pos hmB).mpr ((div_eq_div_iff_pos hmH).mp h), hij⟩

theorem hybridCombined_labeled (mi : List (List ℚ) → ℚ) (dist : List ℚ → List ℚ → ℚ)
    (records : List QRecord) (lambda_t : ℚ) (x : ℕ)
    (hx : (qget records x).labeled = true) :
    hybridCombined mi dist records lambda_t x = -1 := by
  unfold hybridCombined
  rw [if_pos hx]

/-- The λ = 1 hybrid scores on unlabeled slots in the non-cold case. -/
theorem hybridCombined_one_unlabeled (mi : List (List ℚ) → ℚ) (dist : List ℚ → List ℚ → ℚ)
    (records : List QRecord) (hlab : labeledIdx records ≠ []) (x : ℕ)
    (hx : (qget records x).labeled = false) :
    hybridCombined mi dist records 1 x
      = minDistTo dist records (labeledIdx records) x
        / (listMax ((unlabeledIdx records).map
            (minDistTo dist records (labeledIdx records))) + epsQ) := by
  unfold hybridCombined coresetScoreH
  rw [if_neg (show ¬(qget records x).labeled = true by simp [hx]), if_neg hlab,
    if_neg (show ¬(qget records x).labeled = true by simp [hx])]
  have hclip : max 0 (min 1 (1 : ℚ)) = 1 := by norm_num
  rw [hclip]
  ring

/-- The λ = 1 hybrid scores at cold start: 1 on every (unlabeled) slot. -/
theorem hybridCombined_one_cold (mi : List (List ℚ) → ℚ) (dist : List ℚ → List ℚ → ℚ)
    (records : List QRecord) (hlab : labeledIdx records = []) (x : ℕ)
    (hx : (qget records x).labeled = false) :
    hybridCombined mi dist records 1 x = 1 := by
  unfold hybridCombined coresetScoreH
  rw [if_neg (show ¬(qget records x).labeled = true by simp [hx]), if_pos hlab,
    if_neg (show ¬(qget records x).labeled = true by simp [hx])]
  have hclip : max 0 (min 1 (1 : ℚ)) = 1 := by norm_num
  rw [hclip]
  ring

theorem minDistTo_nonneg (dist : List ℚ → List ℚ → ℚ) (records : List QRecord)
    (Hd : ∀ a b, 0 ≤ dist a b) (hlab : labeledIdx records ≠ []) (i : ℕ) :
    0 ≤ minDistTo dist records (labeledIdx records) i := by
  unfold minDistTo
  have hne : (labeledIdx records).map (fun j => dist (effEmb records i) (effEmb records j)) ≠ [] := by
    simpa using hlab
  obtain ⟨j, -, hj⟩ := List.mem_map.mp (listMin_mem _ hne)
  rw [← hj]
  exact Hd _ _

theorem coresetMx_add_eps_pos (dist : List ℚ → List ℚ → ℚ) (records : List QRecord)
    (Hd : ∀ a b, 0 ≤ dist a b) (hlab : labeledIdx records ≠ [])
    (hul : unlabeledIdx records ≠ []) :
    0 < listMax ((unlabeledIdx records).map
      (minDistTo dist records (labeledIdx records))) + epsQ := by
  obtain ⟨i0, hi0⟩ := List.exists_mem_of_ne_nil _ hul
  have hmem : minDistTo dist records (labeledIdx records) i0
      ∈ (unlabeledIdx records).map (minDistTo dist records (labeledIdx records)) :=
    List.mem_map_of_mem _ hi0
  have h1 := minDistTo_nonneg dist records Hd hlab i0
  have h2 := listMax_ge _ _ hmem
  have := epsQ_pos
  linarith

/-- λ = 1 reduces the hybrid to greedy coreset sampling whenever `n` does
not exceed the number of unlabeled records. -/
theorem hybrid_one_eq_coreset (mi : List (List ℚ) → ℚ) (dist : List ℚ → List ℚ → ℚ)
    (records : List QRecord) (n : ℕ)
    (Hd : ∀ a b, 0 ≤ dist a b) (hn : n ≤ (unlabeledIdx records).length) :
    hybrid_coreset_bald_sampling mi dist records n 1
      = greedy_coreset_sampling dist records n := by
  unfold hybrid_coreset_bald_sampling greedy_coreset_sampling
  by_cases hul : unlabeledIdx records = []
  · rw [if_pos hul, if_pos hul]
  rw [if_neg hul, if_neg hul]
  by_cases hlab : labeledIdx records = []
  · -- cold start: every slot scores 1, so the argsort is the identity
    rw [if_pos hlab]
    have hall : ∀ i ∈ List.range records.length, ¬ (qget records i).labeled = true := by
      have h := hlab
      unfold labeledIdx at h
      exact List.filter_eq_nil_iff.mp h
    have hulr : unlabeledIdx records = List.range records.length := by
      unfold unlabeledIdx
      apply List.filter_eq_self.mpr
      intro a ha
      simp [hall a ha]
    have hsort : argsortDesc (hybridCombined mi dist records 1) records.length
        = List.range records.length := by
      apply argsortDesc_eq_of_sorted_perm _ _ _ (List.Perm.refl _)
      rw [List.pairwise_iff_getElem]
      intro a b ha hb hab
      rw [List.length_range] at ha hb
      rw [List.getElem_range, List.getElem_range]
      have hca := hybridCombined_one_cold mi dist records hlab a
        (by have := hall a (List.mem_range.mpr ha); simpa using this)
      have hcb := hybridCombined_one_cold mi dist records hlab b
        (by have := hall b (List.mem_range.mpr hb); simpa using this)
      exact Or.inr ⟨by rw [hca, hcb], le_of_lt hab⟩
    rw [hsort, hulr]
  · -- non-cold: the hybrid argsort is the mapped coreset argsort followed
    -- by the labeled indices
    rw [if_neg hlab]
    have hmx_pos := coresetMx_add_eps_pos dist records Hd hlab hul
    have hkey : argsortDesc (hybridCombined mi dist records 1) records.length
        = ((argsortDesc (coresetDL dist records) (unlabeledIdx records).length).map
            (fun k => (unlabeledIdx records).getD k 0)) ++ labeledIdx records := by
      apply argsortDesc_eq_of_sorted_perm
      · refine List.Perm.trans (List.Perm.append ?_ (List.Perm.refl _)) (ul_lab_perm records)
        have h2 := (argsortDesc_perm (coresetDL dist records)
          (unlabeledIdx records).length).map (fun k => (unlabeledIdx records).getD k 0)
        rw [map_getD_range] at h2
        exact h2
      · rw [List.pairwise_append]
        refine ⟨?_, ?_, ?_⟩
        · rw [List.pairwise_map]
          refine (argsortDesc_sorted (coresetDL dist records) _).imp_of_mem ?_
          intro k1 k2 hk1 hk2 hrel
          have hk1u := argsortDesc_mem _ _ _ hk1
          have hk2u := argsortDesc_mem _ _ _ hk2
          have hg1 := getD_mem_of_lt _ _ hk1u
          have hg2 := getD_mem_of_lt _ _ hk2u
          obtain ⟨hg1N, hg1lab⟩ := (mem_unlabeledIdx records _).mp hg1
          obtain ⟨hg2N, hg2lab⟩ := (mem_unlabeledIdx records _).mp hg2
          have hv1 := hybridCombined_one_unlabeled mi dist records hlab
            ((unlabeledIdx records).getD k1 0) hg1lab
          have hv2 := hybridCombined_one_unlabeled mi dist records hlab
            ((unlabeledIdx records).getD k2 0) hg2lab
          rcases hrel with hlt | ⟨heq, hle⟩
          · refine Or.inl ?_
            rw [hv1, hv2]
            exact (div_lt_div_iff_of_pos_right hmx_pos).mpr hlt
          · refine Or.inr ⟨?_, ?_⟩
            · rw [hv1, hv2]
              exact (div_eq_div_iff_pos hmx_pos).mpr heq
            · rcases Nat.lt_or_ge k1 k2 with hlt2 | hge
              · exact le_of_lt (sorted_getD_lt _ (unlabeledIdx_sorted records) k1 k2 hk1u hk2u hlt2)
              · have : k1 = k2 := le_antisymm hle hge
                rw [this]
        · refine (labeledIdx_sorted records).imp_of_mem ?_
          intro a b ha hb hab
          have hca := hybridCombined_labeled mi dist records 1 a
            ((mem_labeledIdx records a).mp ha).2
          have hcb := hybridCombined_labeled mi dist records 1 b
            ((mem_labeledIdx records b).mp hb).2
          exact Or.inr ⟨by rw [hca, hcb], le_of_lt hab⟩
        · intro a ha b hb
          obtain ⟨k, hk, rfl⟩ := List.mem_map.mp ha
          have hku := argsortDesc_mem _ _ _ hk
          have hg := getD_mem_of_lt _ _ hku
          obtain ⟨hgN, hglab⟩ := (mem_unlabeledIdx records _).mp hg
          have hva := hybridCombined_one_unlabeled mi dist records hlab
            ((unlabeledIdx records).getD k 0) hglab
          have hvb := hybridCombined_labeled mi dist records 1 b
            ((mem_labeledIdx records b).mp hb).2
          refine Or.inl ?_
          rw [hva, hvb]
          have hnum := minDistTo_nonneg dist records Hd hlab ((unlabeledIdx records).getD k 0)
          have := div_nonneg hnum (le_of_lt hmx_pos)
          linarith
    rw [hkey,
      List.take_append_of_le_length (by rw [List.length_map, argsortDesc_length]; exact hn),
      ← List.map_take]

/-- Claim C7 (amended): for nonnegative mutual-information and distance
scores, the hybrid with λ = 0 returns exactly `bald_sampling`'s output
whenever at least one unlabeled record carries MC samples (otherwise BALD
returns `[]` while the hybrid still ranks), and the hybrid with λ = 1
returns exactly `greedy_coreset_sampling`'s output whenever
`n ≤ #unlabeled` (beyond that, coreset selection stays inside the
unlabeled pool — in the source it raises — while the hybrid pads with
labeled indices). -/
theorem C7_hybrid_amended (mi : List (List ℚ) → ℚ) (dist : List ℚ → List ℚ → ℚ)
    (records : List QRecord) (n : ℕ)
    (Hmi : ∀ mc, 0 ≤ mi mc) (Hd : ∀ a b, 0 ≤ dist a b) :
    (mcVals mi records ≠ [] →
      hybrid_coreset_bald_sampling mi dist records n 0 = bald_sampling mi records n)
    ∧ (n ≤ (unlabeledIdx records).length →
      hybrid_coreset_bald_sampling mi dist records n 1
        = greedy_coreset_sampling dist records n) :=
  ⟨fun hvals => hybrid_zero_eq_bald mi dist records n Hmi hvals,
   fun hn => hybrid_one_eq_coreset mi dist records n Hd hn⟩

/-- Witness for the amended C7 on three records (one labeled, one with MC
samples, one bare unlabeled), `n = 1`. -/
theorem C7_amended_witness :
    (∀ mc, 0 ≤ mi1 mc)
    ∧ (∀ a b, 0 ≤ sqDist a b)
    ∧ mcVals mi1 [rL, rM, rU] ≠ []
    ∧ 1 ≤ (unlabeledIdx [rL, rM, rU]).length
    ∧ hybrid_coreset_bald_sampling mi1 sqDist [rL, rM, rU] 1 0
        = bald_sampling mi1 [rL, rM, rU] 1
    ∧ hybrid_coreset_bald_sampling mi1 sqDist [rL, rM, rU] 1 1
        = greedy_coreset_sampling sqDist [rL, rM, rU] 1 := by
  have hmi : ∀ mc, 0 ≤ mi1 mc := fun mc => by norm_num [mi1]
  have hd : ∀ a b, 0 ≤ sqDist a b := sqDist_nonneg
  have h1 : mcVals mi1 [rL, rM, rU] ≠ [] := by with_unfolding_all decide
  have h2 : 1 ≤ (unlabeledIdx [rL, rM, rU]).length := by with_unfolding_all decide
  exact ⟨hmi, hd, h1, h2,
    (C7_hybrid_amended mi1 sqDist [rL, rM, rU] 1 hmi hd).1 h1,
    (C7_hybrid_amended mi1 sqDist [rL, rM, rU] 1 hmi hd).2 h2⟩

end FeedbackMemo
